import Mathlib

/-!
Shallow embedding of the core of `src/images.py` (david-hoffman/py-seg-tools):
the type classifier tables, the renumbering engine `consecutively_number`,
the connected-component validator `relabel`, the type-narrowing helper
`_conv_type`, and the histogram matcher `histeq`.

Modelling conventions:
* a numpy 2-D array is a `List (List Int)` of pixel values together with a
  `Dtype` tag (`PlainImage`); an RGB24 image is a 2-D list of byte triples;
* numpy floating-point arithmetic inside `histeq` is modelled with exact
  rationals (`ℚ`); `sqrt(spacing(1))` is `2 ^ (-26)` exactly, since
  `spacing(1) = 2 ^ (-52)` and the square root of an even power of two is
  computed exactly by a correctly-rounded float square root;
* `astype` wraps values modulo the target width exactly as numpy does when
  casting to an unsigned integer type, and maps nonzero to 1 for bool.
-/

namespace Images

/-- The element dtypes enumerated at the top of `images.py` (`IM_BIT` …
`IM_DOUBLE`).  `IM_RGB24`/`IM_RGB24_STRUCT` are represented by the `rgb`
constructor of `NpImage` below, mirroring the fact that the RGB branch of
`consecutively_number` first views the data as the struct dtype. -/
inductive Dtype
  | IM_BIT | IM_BYTE | IM_SBYTE
  | IM_SHORT | IM_SHORT_BE | IM_USHORT | IM_USHORT_BE
  | IM_INT | IM_INT_BE | IM_UINT | IM_UINT_BE
  | IM_LONG | IM_LONG_BE | IM_ULONG | IM_ULONG_BE
  | IM_FLOAT | IM_DOUBLE
  deriving DecidableEq, Repr

open Dtype

/-- Bit width of each dtype (numpy itemsize in bits). -/
def bitWidth : Dtype → Nat
  | IM_BIT => 8
  | IM_BYTE | IM_SBYTE => 8
  | IM_SHORT | IM_SHORT_BE | IM_USHORT | IM_USHORT_BE => 16
  | IM_INT | IM_INT_BE | IM_UINT | IM_UINT_BE => 32
  | IM_FLOAT => 32
  | IM_LONG | IM_LONG_BE | IM_ULONG | IM_ULONG_BE => 64
  | IM_DOUBLE => 64

/-- Minimum representable value, from the `_min_max_values` table
(`iinfo(dt).min`; `False` for `IM_BIT`; nominal `0.0` for floats). -/
def dtypeMin : Dtype → Int
  | IM_BIT => 0
  | IM_BYTE => 0
  | IM_SBYTE => -128
  | IM_SHORT | IM_SHORT_BE => -32768
  | IM_USHORT | IM_USHORT_BE => 0
  | IM_INT | IM_INT_BE => -(2 ^ 31)
  | IM_UINT | IM_UINT_BE => 0
  | IM_LONG | IM_LONG_BE => -(2 ^ 63)
  | IM_ULONG | IM_ULONG_BE => 0
  | IM_FLOAT | IM_DOUBLE => 0

/-- Maximum representable value, from the `_min_max_values` table
(`iinfo(dt).max`; `True`, which Python compares as `1`, for `IM_BIT`;
nominal `1.0` for floats). -/
def dtypeMax : Dtype → Int
  | IM_BIT => 1
  | IM_BYTE => 255
  | IM_SBYTE => 127
  | IM_SHORT | IM_SHORT_BE => 32767
  | IM_USHORT | IM_USHORT_BE => 65535
  | IM_INT | IM_INT_BE => 2 ^ 31 - 1
  | IM_UINT | IM_UINT_BE => 2 ^ 32 - 1
  | IM_LONG | IM_LONG_BE => 2 ^ 63 - 1
  | IM_ULONG | IM_ULONG_BE => 2 ^ 64 - 1
  | IM_FLOAT | IM_DOUBLE => 1

/-- The `_signed2unsigned` lookup table from `images.py`, as a partial map:
`some u` when the dtype is a signed integer type with unsigned counterpart
`u`, `none` otherwise. -/
def _signed2unsigned : Dtype → Option Dtype
  | IM_SBYTE => some IM_BYTE
  | IM_SHORT => some IM_USHORT
  | IM_SHORT_BE => some IM_USHORT_BE
  | IM_INT => some IM_UINT
  | IM_INT_BE => some IM_UINT_BE
  | IM_LONG => some IM_ULONG
  | IM_LONG_BE => some IM_ULONG_BE
  | _ => none

/-- The tuple `_unsigned_types = (IM_BIT, IM_BYTE, IM_USHORT, IM_UINT,
IM_ULONG)` from `images.py`, in its source order (ascending sizes). -/
def _unsigned_types : List Dtype := [IM_BIT, IM_BYTE, IM_USHORT, IM_UINT, IM_ULONG]

/-- numpy dtype kind test: `true` exactly for the unsigned *integer* dtypes
(numpy kind `u`).  `IM_BIT` is numpy `bool_`, kind `b`, hence `false`. -/
def isUnsignedIntKind : Dtype → Bool
  | IM_BYTE | IM_USHORT | IM_USHORT_BE | IM_UINT | IM_UINT_BE
  | IM_ULONG | IM_ULONG_BE => true
  | _ => false

/-- Value action of `ndarray.astype(dt)` for the dtypes this program casts
to: wrap modulo the width for unsigned integers (numpy C-cast), nonzero to
one for bool, identity for the remaining dtypes (only ever applied by this
program to values those dtypes represent exactly). -/
def astypeVal : Dtype → Int → Int
  | IM_BIT, x => if x = 0 then 0 else 1
  | IM_BYTE, x => x.emod (2 ^ 8)
  | IM_USHORT, x => x.emod (2 ^ 16)
  | IM_USHORT_BE, x => x.emod (2 ^ 16)
  | IM_UINT, x => x.emod (2 ^ 32)
  | IM_UINT_BE, x => x.emod (2 ^ 32)
  | IM_ULONG, x => x.emod (2 ^ 64)
  | IM_ULONG_BE, x => x.emod (2 ^ 64)
  | _, x => x

/-- A plain (non-RGB) image: 2-D pixel data plus its element dtype. -/
structure PlainImage where
  data : List (List Int)
  dtype : Dtype
  deriving DecidableEq, Repr

/-- A byte triple, one RGB24 pixel. -/
abbrev Rgb := Nat × Nat × Nat

/-- Lexicographic encoding of an RGB24 struct pixel as a single integer.
numpy sorts/compares `IM_RGB24_STRUCT` records lexicographically by field
order (R, G, B); for byte-valued components this encoding is an order
isomorphism onto its image, so `unique`/`searchsorted` on the encoded
values agree with numpy on the records. -/
def encodeRgb (p : Rgb) : Int := (p.1 * 65536 + p.2.1 * 256 + p.2.2 : Nat)

/-- An input array acceptable to the image classifier: a 2-D plain image
(`is_image_besides_rgb24`: every `Dtype` above is in
`_integer_types ∪ {IM_FLOAT, IM_DOUBLE}`) or an RGB24 image (`is_rgb24`,
already viewed as the struct dtype and squeezed). -/
inductive NpImage
  | plain (data : List (List Int)) (dtype : Dtype)
  | rgb (data : List (List Rgb))
  deriving DecidableEq, Repr

/-- Equality of `Except` results is decidable (needed to evaluate the
embedded functions on concrete inputs). -/
instance exceptDecEq {ε α : Type} [DecidableEq ε] [DecidableEq α] :
    DecidableEq (Except ε α) := fun a b =>
  match a, b with
  | .error e, .error f =>
    if h : e = f then .isTrue (by rw [h])
    else .isFalse (by intro hc; injection hc; exact h (by assumption))
  | .error _, .ok _ => .isFalse (by intro hc; exact Except.noConfusion hc)
  | .ok _, .error _ => .isFalse (by intro hc; exact Except.noConfusion hc)
  | .ok x, .ok y =>
    if h : x = y then .isTrue (by rw [h])
    else .isFalse (by intro hc; injection hc; exact h (by assumption))

/-- Insert an integer into a sorted-ascending list, dropping duplicates.
Building block for `unique`. -/
def insertSorted (x : Int) : List Int → List Int
  | [] => [x]
  | y :: ys =>
    if x < y then x :: y :: ys
    else if x = y then y :: ys
    else y :: insertSorted x ys

/-- Model of `numpy.unique` on the flattened values: the sorted list of distinct
values. -/
def unique (l : List Int) : List Int := l.foldr insertSorted []

/-- Model of `numpy.searchsorted(vals, x)` (side `left`) for a sorted `vals`: the
number of entries strictly below `x`, i.e. the rank of `x` when
`x ∈ vals`. -/
def searchsorted (vals : List Int) (x : Int) : Nat :=
  (vals.filter (fun v => decide (v < x))).length

/-- The `_conv_type` loop body: try the enumerated unsigned types in order,
returning `im.astype(dtype), n` at the first one whose table maximum is at
least `n`. -/
def conv_type_go (ts : List Dtype) (d : List (List Int)) (n : Nat) :
    Except String (PlainImage × Nat) :=
  match ts with
  | [] => .error "OverflowError"
  | t :: ts =>
    if (n : Int) ≤ dtypeMax t then
      .ok (⟨d.map (fun row => row.map (astypeVal t)), t⟩, n)
    else conv_type_go ts d n

/-- Model of `_conv_type(im, n)` from `images.py`: narrow to the first dtype of
`_unsigned_types` whose maximum is `≥ n`, else raise `OverflowError`. -/
def _conv_type (d : List (List Int)) (n : Nat) : Except String (PlainImage × Nat) :=
  conv_type_go _unsigned_types d n

/-- The flattened input values of an image as integers, RGB pixels going
through the lexicographic `encodeRgb`.  This is the value stream that
`unique`/`searchsorted` see inside `consecutively_number`. -/
def inputEncoded : NpImage → List Int
  | .plain d _ => d.flatten
  | .rgb d => d.flatten.map (fun p => encodeRgb p)

/-- Model of `consecutively_number(im)` from `images.py`.  The RGB branch views the
pixels as struct records (modelled by `encodeRgb`), forces `(0,0,0)` to the
front of the distinct values when absent, and rank-remaps.  The plain
branch rejects negative values, forces `0` to the front when absent, takes
the fast path (no remap) when the dtype is not floating point and the
distinct values are already `0..count-1`, and otherwise rank-remaps.  Both
end by narrowing with `_conv_type`.  An empty input raises in numpy at
`values[0]`, modelled as an `IndexError` result. -/
def consecutively_number : NpImage → Except String (PlainImage × Nat)
  | .rgb d =>
    let enc : List (List Int) := d.map (fun row => row.map (fun p => encodeRgb p))
    match unique enc.flatten with
    | [] => .error "IndexError"
    | v0 :: rest =>
      let values := if v0 ≠ 0 then 0 :: v0 :: rest else v0 :: rest
      _conv_type (enc.map (fun row => row.map (fun x => ((searchsorted values x : Nat) : Int))))
        (values.length - 1)
  | .plain d dt =>
    match unique d.flatten with
    | [] => .error "IndexError"
    | v0 :: rest =>
      if v0 < 0 then .error "negative numbers"
      else
        let values := if v0 ≠ 0 then 0 :: v0 :: rest else v0 :: rest
        if dt ≠ IM_FLOAT ∧ dt ≠ IM_DOUBLE ∧
            values.getLast? = some ((values.length : Int) - 1) then
          _conv_type d (values.length - 1)
        else
          _conv_type (d.map (fun row => row.map (fun x => ((searchsorted values x : Nat) : Int))))
            (values.length - 1)


/-- The external connected-components primitive (`scipy.ndimage.label`):
given a boolean mask it returns a same-shape integer component-id array
(0 = background) and the number of components found.  `relabel` treats it
as an opaque collaborator, so it is a parameter of the embedding. -/
abbrev Labeler := List (List Bool) → List (List Int) × Nat

/-- The boolean mask `im == i`. -/
def maskEq (d : List (List Int)) (i : Nat) : List (List Bool) :=
  d.map (fun row => row.map (fun x => decide (x = (i : Int))))

/-- Assignment `im[l == j] = newN`: write `newN` at every position whose component id
is `j`. -/
def assignLabel (l : List (List Int)) (j : Nat) (newN : Nat)
    (d : List (List Int)) : List (List Int) :=
  List.zipWith (fun lr dr =>
    List.zipWith (fun lv dv => if lv = (j : Int) then (newN : Int) else dv) lr dr) l d

/-- One step of relabel's inner loop `for j in range(2, n+1)`:
increment `N` and assign it to component `j`. -/
def relabel_inner (l : List (List Int)) (st : List (List Int) × Nat) (j : Nat) :
    List (List Int) × Nat :=
  (assignLabel l j (st.2 + 1) st.1, st.2 + 1)

/-- One iteration of relabel's outer loop over a label `i`:
run the labeler on the mask `im == i`, widen the dtype via `_conv_type`
when `N + n - 1` exceeds the current table maximum (refreshing `mx`), then
give components `2..n` brand-new labels. -/
def relabel_body (lbl : Labeler) (st : PlainImage × Int × Nat) (i : Nat) :
    Except String (PlainImage × Int × Nat) := do
  let im := st.1
  let mx := st.2.1
  let N := st.2.2
  let ln := lbl (maskEq im.data i)
  let l := ln.1
  let n := ln.2
  let immx ←
    if ((N + n - 1 : Nat) : Int) > mx then do
      let cv ← _conv_type im.data (N + n - 1)
      pure (cv.1, dtypeMax cv.1.dtype)
    else pure (im, mx)
  let dN := (List.range' 2 (n - 1)).foldl (relabel_inner l) (immx.1.data, N)
  pure (⟨dN.1, immx.1.dtype⟩, immx.2, dN.2)

/-- Model of `relabel(im)` from `images.py`: renumber with `consecutively_number`,
read the dtype's table maximum, then iterate the body above over
`range(1, N+1)` — a range object built once from the *initial* `N`. -/
def relabel (lbl : Labeler) (im0 : NpImage) : Except String (PlainImage × Nat) := do
  let imN ← consecutively_number im0
  let st ← (List.range' 1 imN.2).foldlM (relabel_body lbl)
    (imN.1, dtypeMax imN.1.dtype, imN.2)
  pure (st.1, st.2.2)

/-- The list of labels the `for i in range(1, N+1)` loop of `relabel`
iterates over: Python builds the range object once at loop entry, from the
value of `N` returned by `consecutively_number`. -/
def relabel_visited (im0 : NpImage) : List Nat :=
  match consecutively_number im0 with
  | .ok imN => List.range' 1 imN.2
  | .error _ => []

/-- A caller-supplied numpy array argument (used for `hgram`): its shape
(so `ndim = shape.length`) and flattened data. -/
structure NArr where
  shape : List Nat
  data : List ℚ
  deriving DecidableEq, Repr

/-- Lines 182-189 of `images.py` (`histeq` argument handling): with no
`hgram`, default `nbins` to 64 and build the uniform target
`tile(float(im.size)/nbins, nbins)`; with `hgram`, reject a simultaneous
`nbins`, reject a non-1-D `hgram`, else take `nbins = len(hgram)` and
rescale `hgram` so its sum is the pixel count.  `sz` is `im.size`. -/
def histeq_args (sz : Nat) (nbins : Option Nat) (hgram : Option NArr) :
    Except String (Nat × List ℚ) :=
  match hgram with
  | none =>
    let nb := nbins.getD 64
    .ok (nb, List.replicate nb ((sz : ℚ) / (nb : ℚ)))
  | some hg =>
    match nbins with
    | some _ => .error "Cannot use both nbins and hgram in histeq"
    | none =>
      if hg.shape.length ≠ 1 then .error "hgram must be a vector"
      else .ok (hg.data.length, hg.data.map (fun c => c * ((sz : ℚ) / hg.data.sum)))

/-- View `x.view(unsigned counterpart)` on one element: reinterpret the stored
bit pattern (two's complement) as an unsigned integer of the same width,
i.e. reduce modulo `2 ^ w`.  This is a bit-level reinterpretation, not a
value conversion. -/
def viewUnsignedVal (w : Nat) (x : Int) : Int := x.emod (2 ^ w)

/-- View `y.view(signed counterpart)` on one element: reinterpret an unsigned
bit pattern `y ∈ [0, 2^w)` as a two's-complement signed value. -/
def viewSignedVal (w : Nat) (y : Int) : Int :=
  if 2 ^ (w - 1) ≤ y then y - 2 ^ w else y

/-- The final `.view(dtype=orig_dtype)` of `histeq`: when the original
dtype was signed (so the working data was its unsigned counterpart),
reinterpret each element back as signed; otherwise the view is to the same
dtype and changes nothing. -/
def viewBackData (dt : Dtype) (d : List (List Int)) : List (List Int) :=
  match _signed2unsigned dt with
  | some udt => d.map (fun row => row.map (viewSignedVal (bitWidth udt)))
  | none => d

/-- Model of `_get_min_max(im)` on an array: for float dtypes the observed data
min/max, unless both lie in `[0, 1]`, in which case the nominal `(0, 1)`;
for all other dtypes the `_min_max_values` table entry.  (numpy raises on
`min()` of an empty float array; the model returns the nominal bounds
there — unreachable in the claims below.) -/
def _get_min_max_arr (d : List (List Int)) (dt : Dtype) : ℚ × ℚ :=
  if dt = IM_FLOAT ∨ dt = IM_DOUBLE then
    match d.flatten with
    | [] => ((0 : ℚ), 1)
    | x :: xs =>
      let mn := xs.foldl min x
      let mx := xs.foldl max x
      if mn < 0 ∨ 1 < mx then ((mn : ℚ), (mx : ℚ)) else ((0 : ℚ), 1)
  else ((dtypeMin dt : ℚ), (dtypeMax dt : ℚ))

/-- Model of `numpy.histogram(vals, 256, range=(mn, mx1))[0]`, bin `j`: the count of
values in the `j`-th of 256 equal-width bins over `[mn, mx1]`; the lastbin
is closed on the right, out-of-range values are dropped. -/
def histCount (vals : List Int) (mn mx1 : ℚ) (j : Nat) : Nat :=
  let lo := mn + (j : ℚ) * (mx1 - mn) / 256
  let hi := mn + ((j : ℚ) + 1) * (mx1 - mn) / 256
  (vals.filter (fun v =>
    decide (lo ≤ (v : ℚ)) &&
      (if j = 255 then decide ((v : ℚ) ≤ mx1) else decide ((v : ℚ) < hi)))).length

/-- Cumulative sum (`cumsum`) of a list of rationals. -/
def cumsum (l : List ℚ) : List ℚ := (l.scanl (· + ·) 0).tail

/-- Replace the first entry of a list by `0` (`xx[1,0] = 0`; applied to a
reversed list it models `xx[0,255] = 0`, the last of the 256 entries). -/
def zeroFirst : List ℚ → List ℚ
  | [] => []
  | _ :: xs => 0 :: xs

/-- First-occurrence argmin over a list of rationals (`numpy.argmin`). -/
def argminGo : List ℚ → ℚ → Nat → Nat → Nat
  | [], _, _, best => best
  | x :: xs, bv, i, best =>
    if x < bv then argminGo xs x (i + 1) i else argminGo xs bv (i + 1) best

/-- Model of `numpy.argmin` (0 on an empty list; never hit here since `argmin(0)` is
taken over the 256 histogram rows). -/
def argminQ : List ℚ → Nat
  | [] => 0
  | x :: xs => argminGo xs x 1 0

/-- Round half to even (`numpy.round`). -/
def roundHalfEven (q : ℚ) : Int :=
  let f := ⌊q⌋
  let r := q - (f : ℚ)
  if r < 1 / 2 then f
  else if 1 / 2 < r then f + 1
  else if f % 2 = 0 then f else f + 1

/-- Lines 194-207 of `images.py`, everything after the signed→unsigned
view: the 256-bin source histogram and cdf, the target cdf, the tolerance
row `xx.min(0)/2` (source histogram with last resp. first entry zeroed),
the clamped error surface `err[d,s] = h_dst_cdf[d] - h_src_cdf[s] + tol[s]`
(entries below `-size*sqrt(spacing(1)) = -size/2^26` replaced by `size`),
the lookup table `T[s] = round(argmin_d err[d,s] * mx/(nbins-1))` cast into
the working dtype, index scaling when `mx != 255`, and the final table
lookup.  Float arithmetic is modelled exactly over `ℚ`. -/
def histeq_core (d : List (List Int)) (dt : Dtype) (nb : Nat) (h_dst : List ℚ) :
    List (List Int) :=
  let sz := d.flatten.length
  let mm := _get_min_max_arr d dt
  let mx := mm.2
  let h_src : List ℚ :=
    (List.range 256).map (fun j => ((histCount d.flatten mm.1 (mx + 1) j : Nat) : ℚ))
  let h_src_cdf := cumsum h_src
  let h_dst_cdf := cumsum h_dst
  let tol : List ℚ :=
    List.zipWith (fun a b => min a b / 2) (zeroFirst h_src.reverse).reverse (zeroFirst h_src)
  let errAt : Nat → Nat → ℚ := fun s dcol =>
    let e := h_dst_cdf.getD dcol 0 - h_src_cdf.getD s 0 + tol.getD s 0
    if e < -((sz : ℚ) * (1 / 2 ^ 26)) then (sz : ℚ) else e
  let T : List Int := (List.range 256).map (fun s =>
    astypeVal dt (roundHalfEven
      (((argminQ ((List.range nb).map (errAt s)) : Nat) : ℚ) * (mx / ((nb : ℚ) - 1)))))
  let idxOf : Int → Int := fun v =>
    if mx = 255 then v else roundHalfEven ((v : ℚ) * (255 / mx))
  d.map (fun row => row.map (fun v => T.getD ((idxOf v).emod 256).toNat 0))

/-- Model of `histeq(im, nbins, hgram)` from `images.py`: reject RGB images, handle
the `nbins`/`hgram` arguments, view a signed dtype as its unsigned
counterpart (bit reinterpretation, `viewUnsignedVal`), run the matching
pipeline (`histeq_core`), and view the result back as the original dtype. -/
def histeq (im : NpImage) (nbins : Option Nat) (hgram : Option NArr) :
    Except String PlainImage :=
  match im with
  | .rgb _ => .error "Unsupported image type"
  | .plain d dt =>
    (histeq_args d.flatten.length nbins hgram).bind (fun p =>
      let dd : List (List Int) × Dtype :=
        match _signed2unsigned dt with
        | some udt => (d.map (fun row => row.map (viewUnsignedVal (bitWidth udt))), udt)
        | none => (d, dt)
      .ok ⟨viewBackData dt (histeq_core dd.1 dd.2 p.1 p.2), dt⟩)

/-- Row-wise run labelling: number each maximal run of `true` pixels, left
to right, rows in order, continuing the counter across rows.  On masks
with a single row this coincides exactly with `scipy.ndimage.label`'s
4-connected components in raster-scan numbering; it instantiates the
external `Labeler` at the concrete inputs below. -/
def labelRunsRow : List Bool → Bool → Nat → List Int × Nat
  | [], _, c => ([], c)
  | b :: bs, prev, c =>
    if b then
      let cNew := if prev then c else c + 1
      let rest := labelRunsRow bs true cNew
      ((cNew : Int) :: rest.1, rest.2)
    else
      let rest := labelRunsRow bs false c
      (0 :: rest.1, rest.2)

/-- The concrete labeler built from `labelRunsRow`. -/
def labelRuns (m : List (List Bool)) : List (List Int) × Nat :=
  m.foldl (fun acc row =>
    let rc := labelRunsRow row false acc.2
    (acc.1 ++ [rc.1], rc.2)) ([], 0)

/-! ### Properties of `unique` and `searchsorted` -/

theorem mem_insertSorted (x a : Int) (l : List Int) :
    a ∈ insertSorted x l ↔ a = x ∨ a ∈ l := by
  induction l with
  | nil => simp [insertSorted]
  | cons y ys ih =>
    by_cases h1 : x < y
    · simp [insertSorted, h1]
    · by_cases h2 : x = y
      · subst h2
        rw [insertSorted, if_neg h1, if_pos rfl]
        simp only [List.mem_cons]
        tauto
      · simp only [insertSorted, if_neg h1, if_neg h2, List.mem_cons, ih]
        tauto

theorem sorted_insertSorted (x : Int) (l : List Int)
    (hl : l.Sorted (· < ·)) : (insertSorted x l).Sorted (· < ·) := by
  induction l with
  | nil => simp [insertSorted]
  | cons y ys ih =>
    rw [List.sorted_cons] at hl
    by_cases h1 : x < y
    · rw [insertSorted, if_pos h1, List.sorted_cons]
      refine ⟨?_, by rw [List.sorted_cons]; exact hl⟩
      intro b hb
      rcases List.mem_cons.1 hb with rfl | hb
      · exact h1
      · exact lt_trans h1 (hl.1 b hb)
    · by_cases h2 : x = y
      · subst h2
        rw [insertSorted, if_neg h1, if_pos rfl, List.sorted_cons]
        exact hl
      · rw [insertSorted, if_neg h1, if_neg h2, List.sorted_cons]
        refine ⟨?_, ih hl.2⟩
        intro b hb
        rcases (mem_insertSorted x b ys).1 hb with rfl | hb
        · omega
        · exact hl.1 b hb

theorem unique_sorted (l : List Int) : (unique l).Sorted (· < ·) := by
  induction l with
  | nil => simp [unique]
  | cons x xs ih => exact sorted_insertSorted x _ ih

theorem mem_unique (l : List Int) (a : Int) : a ∈ unique l ↔ a ∈ l := by
  induction l with
  | nil => simp [unique]
  | cons x xs ih =>
    show a ∈ insertSorted x (unique xs) ↔ _
    rw [mem_insertSorted, ih, List.mem_cons]

theorem unique_nodup (l : List Int) : (unique l).Nodup :=
  (unique_sorted l).nodup

theorem head_le_of_sorted (v0 x : Int) (rest : List Int)
    (hs : (v0 :: rest).Sorted (· < ·)) (hx : x ∈ v0 :: rest) : v0 ≤ x := by
  rw [List.sorted_cons] at hs
  rcases List.mem_cons.1 hx with rfl | hx
  · exact le_refl x
  · exact le_of_lt (hs.1 x hx)

theorem searchsorted_cons (y x : Int) (u : List Int) :
    searchsorted (y :: u) x =
      (if y < x then 1 else 0) + searchsorted u x := by
  unfold searchsorted
  rw [List.filter_cons]
  by_cases h : y < x
  · simp [h]
    omega
  · simp [h]

theorem searchsorted_get (v : List Int) (hv : v.Sorted (· < ·))
    (j : Nat) (hj : j < v.length) : searchsorted v (v.get ⟨j, hj⟩) = j := by
  induction v generalizing j with
  | nil => simp at hj
  | cons y u ih =>
    rw [List.sorted_cons] at hv
    cases j with
    | zero =>
      simp only [List.get]
      rw [searchsorted_cons, if_neg (lt_irrefl y)]
      have hnone : ∀ b ∈ u, ¬ b < y := by
        intro b hb
        exact not_lt_of_gt (hv.1 b hb)
      unfold searchsorted
      have hnil : u.filter (fun v => decide (v < y)) = [] :=
        List.filter_eq_nil_iff.2 (by intro b hb; simpa using hnone b hb)
      rw [hnil]
      rfl
    | succ j =>
      simp only [List.get]
      have hju : j < u.length := by simpa using hj
      have hyl : y < u.get ⟨j, hju⟩ := hv.1 _ (u.get_mem j hju)
      rw [searchsorted_cons, if_pos hyl, ih hv.2 j hju]
      omega

theorem searchsorted_lt_length (v : List Int) (x : Int) (hx : x ∈ v) :
    searchsorted v x < v.length := by
  induction v with
  | nil => simp at hx
  | cons y u ih =>
    rw [searchsorted_cons]
    simp only [List.length_cons]
    have hle : searchsorted u x ≤ u.length := by
      unfold searchsorted
      exact List.length_filter_le _ _
    rcases List.mem_cons.1 hx with heq | hx
    · subst heq
      rw [if_neg (lt_irrefl x)]
      omega
    · have h2 := ih hx
      by_cases h : y < x
      · rw [if_pos h]
        omega
      · rw [if_neg h]
        omega

theorem searchsorted_surj (v : List Int) (hv : v.Sorted (· < ·))
    (j : Nat) (hj : j < v.length) :
    ∃ x ∈ v, searchsorted v x = j :=
  ⟨v.get ⟨j, hj⟩, v.get_mem j hj, searchsorted_get v hv j hj⟩

theorem searchsorted_eq_zero_iff (v : List Int) (x : Int)
    (hnn : ∀ y ∈ v, 0 ≤ y) (h0 : (0 : Int) ∈ v) (hx : 0 ≤ x) :
    searchsorted v x = 0 ↔ x = 0 := by
  constructor
  · intro h
    by_contra hne
    have hpos : 0 < x := lt_of_le_of_ne hx (Ne.symm hne)
    have : (0 : Int) ∈ v.filter (fun v => decide (v < x)) :=
      List.mem_filter.2 ⟨h0, by simpa using hpos⟩
    have : 0 < (v.filter (fun v => decide (v < x))).length :=
      List.length_pos_of_mem this
    unfold searchsorted at h
    omega
  · intro h
    subst h
    unfold searchsorted
    rw [List.filter_eq_nil_iff.2 ?_]
    · rfl
    · intro b hb
      have := hnn b hb
      simp
      omega


/-! ### Properties of `astypeVal` and `_conv_type` -/

theorem astypeVal_eq_self (t : Dtype) (x : Int) (h0 : 0 ≤ x) (h1 : x ≤ dtypeMax t) :
    astypeVal t x = x := by
  cases t <;> simp only [astypeVal, dtypeMax] at h1 ⊢ <;>
    first
      | rfl
      | (split <;> omega)
      | (apply Int.emod_eq_of_lt h0
         norm_num at h1 ⊢
         omega)

theorem conv_type_go_ok (ts : List Dtype) (d : List (List Int)) (n : Nat)
    (out : PlainImage) (m : Nat) (h : conv_type_go ts d n = .ok (out, m)) :
    m = n ∧ out.dtype ∈ ts ∧ (n : Int) ≤ dtypeMax out.dtype ∧
      out.data = d.map (fun row => row.map (astypeVal out.dtype)) := by
  induction ts with
  | nil => simp [conv_type_go] at h
  | cons t ts ih =>
    rw [conv_type_go] at h
    by_cases hc : (n : Int) ≤ dtypeMax t
    · rw [if_pos hc] at h
      simp only [Except.ok.injEq, Prod.mk.injEq] at h
      obtain ⟨hout, hm⟩ := h
      subst hm
      rw [← hout]
      exact ⟨rfl, List.mem_cons_self t ts, hc, rfl⟩
    · rw [if_neg hc] at h
      obtain ⟨hm, hmem, hle, hdata⟩ := ih h
      exact ⟨hm, List.mem_cons_of_mem t hmem, hle, hdata⟩

theorem _conv_type_ok (d : List (List Int)) (n : Nat) (out : PlainImage) (m : Nat)
    (h : _conv_type d n = .ok (out, m)) :
    m = n ∧ out.dtype ∈ _unsigned_types ∧ (n : Int) ≤ dtypeMax out.dtype ∧
      out.data = d.map (fun row => row.map (astypeVal out.dtype)) :=
  conv_type_go_ok _unsigned_types d n out m h

theorem _conv_type_bit (d : List (List Int)) (n : Nat) (hn : n ≤ 1) :
    _conv_type d n =
      .ok (⟨d.map (fun row => row.map (astypeVal IM_BIT)), IM_BIT⟩, n) := by
  unfold _conv_type _unsigned_types conv_type_go
  rw [if_pos (by simp only [dtypeMax]; omega)]

/-! ### Flatten and map helpers -/

theorem flatten_map_map {α β : Type} (f : α → β) (d : List (List α)) :
    (d.map (fun row => row.map f)).flatten = d.flatten.map f := by
  induction d with
  | nil => rfl
  | cons r rs ih =>
    simp only [List.map_cons, List.flatten_cons, List.map_append, ih]

/-! ### Dense sorted integer lists -/

/-- The list `[0, 1, ..., n-1]` as integers. -/
def rangeInt (n : Nat) : List Int := (List.range n).map (fun k : Nat => (k : Int))

/-- The list `[s, s+1, ..., s+n-1]` as integers. -/
def rangeInt' (s n : Nat) : List Int := (List.range' s n).map (fun k : Nat => (k : Int))

theorem rangeInt_sorted (c : Nat) : (rangeInt c).Sorted (· < ·) := by
  unfold rangeInt
  rw [List.Sorted, List.pairwise_map]
  exact (List.pairwise_lt_range c).imp (by intro a b h; exact_mod_cast h)

theorem mem_rangeInt (c : Nat) (x : Int) : x ∈ rangeInt c ↔ 0 ≤ x ∧ x < c := by
  unfold rangeInt
  simp only [List.mem_map, List.mem_range]
  constructor
  · rintro ⟨k, hk, rfl⟩
    constructor
    · exact Int.ofNat_nonneg k
    · exact_mod_cast hk
  · rintro ⟨h0, hc⟩
    refine ⟨x.toNat, ?_, ?_⟩
    · omega
    · omega

theorem getLast_ge (a : Int) (t : List Int) (hs : (a :: t).Sorted (· < ·)) :
    a + (t.length : Int) ≤ (a :: t).getLast (by simp) := by
  induction t generalizing a with
  | nil => simp
  | cons b t2 ih =>
    have h1 := ih b (List.sorted_cons.1 hs).2
    have hab : a < b := (List.sorted_cons.1 hs).1 b (List.mem_cons_self b t2)
    rw [List.getLast_cons (by simp)]
    simp only [List.length_cons]
    push_cast
    push_cast at h1
    omega

theorem dense_cons (t : List Int) : ∀ a : Int, (a :: t).Sorted (· < ·) →
    (a :: t).getLast (by simp) = a + (t.length : Int) →
    a :: t = (List.range (t.length + 1)).map (fun k : Nat => a + (k : Int)) := by
  induction t with
  | nil =>
    intro a _ _
    simp [List.range_succ]
  | cons b t2 ih =>
    intro a hs hlast
    have hsbt : (b :: t2).Sorted (· < ·) := (List.sorted_cons.1 hs).2
    have hab : a < b := (List.sorted_cons.1 hs).1 b (List.mem_cons_self b t2)
    have hlast2 : (a :: b :: t2).getLast (by simp) = (b :: t2).getLast (by simp) :=
      List.getLast_cons (by simp)
    have hge := getLast_ge b t2 hsbt
    have hb : b = a + 1 := by
      rw [hlast2] at hlast
      simp only [List.length_cons] at hlast
      push_cast at hlast
      omega
    have hlast3 : (b :: t2).getLast (by simp) = b + (t2.length : Int) := by
      rw [hlast2] at hlast
      simp only [List.length_cons] at hlast
      push_cast at hlast
      omega
    have hrec := ih b hsbt hlast3
    calc a :: b :: t2 = a :: ((List.range (t2.length + 1)).map (fun k : Nat => b + (k : Int))) := by
          rw [← hrec]
      _ = (List.range (t2.length + 1 + 1)).map (fun k : Nat => a + (k : Int)) := by
          conv_rhs => rw [List.range_succ_eq_map]
          simp only [List.map_cons, List.map_map]
          congr 1
          · push_cast
            omega
          · apply List.map_congr_left
            intro k _
            simp only [Function.comp_apply]
            push_cast
            omega
      _ = (List.range ((b :: t2).length + 1)).map (fun k : Nat => a + (k : Int)) := rfl

theorem eq_rangeInt_of_sorted (v : List Int) (hs : v.Sorted (· < ·)) (hne : v ≠ [])
    (h0 : v.head? = some 0) (hl : v.getLast? = some ((v.length : Int) - 1)) :
    v = rangeInt v.length := by
  cases v with
  | nil => exact absurd rfl hne
  | cons a t =>
    have ha : a = 0 := by
      simp only [List.head?_cons, Option.some.injEq] at h0
      omega
    subst ha
    have hlv : (0 :: t).getLast (by simp) = (0 : Int) + (t.length : Int) := by
      have := List.getLast?_eq_getLast (l := 0 :: t) (by simp)
      rw [this] at hl
      simp only [Option.some.injEq] at hl
      rw [hl]
      simp only [List.length_cons]
      push_cast
      omega
    have := dense_cons t 0 hs hlv
    rw [this]
    unfold rangeInt
    simp only [List.length_map, List.length_range]
    apply List.map_congr_left
    intro k _
    omega

theorem searchsorted_rangeInt (c : Nat) (x : Int) (hx : x ∈ rangeInt c) :
    ((searchsorted (rangeInt c) x : Nat) : Int) = x := by
  obtain ⟨j, hget⟩ := List.mem_iff_get.1 hx
  have hgj : (rangeInt c).get j = ((j : Nat) : Int) := by
    unfold rangeInt
    simp [List.get_eq_getElem]
  have hrank := searchsorted_get (rangeInt c) (rangeInt_sorted c) j.1 j.2
  have hj : (⟨j.1, j.2⟩ : Fin (rangeInt c).length) = j := rfl
  rw [hj, hget] at hrank
  rw [hrank, ← hget, hgj]

theorem sorted_eq_of_mem_iff (l₁ : List Int) :
    ∀ l₂ : List Int, l₁.Sorted (· < ·) → l₂.Sorted (· < ·) →
      (∀ a, a ∈ l₁ ↔ a ∈ l₂) → l₁ = l₂ := by
  induction l₁ with
  | nil =>
    intro l₂ _ _ hmem
    cases l₂ with
    | nil => rfl
    | cons b t₂ => exact absurd ((hmem b).2 (List.mem_cons_self b t₂)) (by simp)
  | cons a t₁ ih =>
    intro l₂ hs₁ hs₂ hmem
    cases l₂ with
    | nil => exact absurd ((hmem a).1 (List.mem_cons_self a t₁)) (by simp)
    | cons b t₂ =>
      have hab : a = b := by
        have h1 : b ≤ a := head_le_of_sorted b a t₂ hs₂ ((hmem a).1 (List.mem_cons_self a t₁))
        have h2 : a ≤ b := head_le_of_sorted a b t₁ hs₁ ((hmem b).2 (List.mem_cons_self b t₂))
        omega
      subst hab
      have htails : ∀ x, x ∈ t₁ ↔ x ∈ t₂ := by
        intro x
        constructor
        · intro hx
          have hax : a < x := (List.sorted_cons.1 hs₁).1 x hx
          rcases List.mem_cons.1 ((hmem x).1 (List.mem_cons_of_mem a hx)) with rfl | h
          · omega
          · exact h
        · intro hx
          have hax : a < x := (List.sorted_cons.1 hs₂).1 x hx
          rcases List.mem_cons.1 ((hmem x).2 (List.mem_cons_of_mem a hx)) with rfl | h
          · omega
          · exact h
      rw [ih t₂ (List.sorted_cons.1 hs₁).2 (List.sorted_cons.1 hs₂).2 htails]

/-! ### Structure of `consecutively_number` -/

theorem unique_eq_nil_iff (l : List Int) : unique l = [] ↔ l = [] := by
  constructor
  · intro h
    cases l with
    | nil => rfl
    | cons x xs =>
      have hx : x ∈ unique (x :: xs) := (mem_unique _ x).2 (List.mem_cons_self x xs)
      rw [h] at hx
      simp at hx
  · intro h
    subst h
    rfl

theorem encodeRgb_nonneg (p : Rgb) : 0 ≤ encodeRgb p := Int.ofNat_nonneg _

/-- The `values` list `consecutively_number` ranks against: the sorted
distinct input values, with `0` forced to the front when it is not already
the first entry. -/
def cnValues (im : NpImage) : List Int :=
  match unique (inputEncoded im) with
  | [] => []
  | v0 :: rest => if v0 ≠ 0 then 0 :: v0 :: rest else v0 :: rest

theorem conv_type_ranks (vals : List Int) (d : List (List Int)) (out : PlainImage) (N : Nat)
    (h : _conv_type (d.map (fun row => row.map (fun x => ((searchsorted vals x : Nat) : Int))))
        (vals.length - 1) = .ok (out, N))
    (hvne : vals ≠ [])
    (hmem : ∀ x ∈ d.flatten, x ∈ vals) :
    vals.length = N + 1 ∧ out.dtype ∈ _unsigned_types ∧ (N : Int) ≤ dtypeMax out.dtype ∧
      out.data.flatten = d.flatten.map (fun x => ((searchsorted vals x : Nat) : Int)) := by
  obtain ⟨hm, hdt, hle, hdata⟩ := _conv_type_ok _ _ _ _ h
  subst hm
  have hlen : 0 < vals.length := List.length_pos_of_ne_nil hvne
  refine ⟨by omega, hdt, hle, ?_⟩
  rw [hdata, flatten_map_map, flatten_map_map, List.map_map]
  apply List.map_congr_left
  intro x hx
  simp only [Function.comp_apply]
  apply astypeVal_eq_self
  · exact Int.ofNat_nonneg _
  · have hlt := searchsorted_lt_length vals x (hmem x hx)
    omega

theorem conv_type_fast (vals : List Int) (d : List (List Int)) (out : PlainImage) (N : Nat)
    (h : _conv_type d (vals.length - 1) = .ok (out, N))
    (hs : vals.Sorted (· < ·)) (hvne : vals ≠ [])
    (h0 : vals.head? = some 0)
    (hlast : vals.getLast? = some ((vals.length : Int) - 1))
    (hmem : ∀ x ∈ d.flatten, x ∈ vals) :
    vals.length = N + 1 ∧ out.dtype ∈ _unsigned_types ∧ (N : Int) ≤ dtypeMax out.dtype ∧
      out.data.flatten = d.flatten.map (fun x => ((searchsorted vals x : Nat) : Int)) := by
  obtain ⟨hm, hdt, hle, hdata⟩ := _conv_type_ok _ _ _ _ h
  subst hm
  have hlen : 0 < vals.length := List.length_pos_of_ne_nil hvne
  have hrange := eq_rangeInt_of_sorted vals hs hvne h0 hlast
  refine ⟨by omega, hdt, hle, ?_⟩
  rw [hdata, flatten_map_map]
  apply List.map_congr_left
  intro x hx
  have hxv : x ∈ vals := hmem x hx
  have hxr : x ∈ rangeInt vals.length := hrange ▸ hxv
  have hxb := (mem_rangeInt _ _).1 hxr
  have hrank : ((searchsorted vals x : Nat) : Int) = x := by
    rw [hrange]
    exact searchsorted_rangeInt vals.length x hxr
  rw [hrank]
  exact astypeVal_eq_self out.dtype x hxb.1 (by omega)

theorem consecutively_number_ok_struct (im : NpImage) (out : PlainImage) (N : Nat)
    (h : consecutively_number im = .ok (out, N)) :
    (∀ x ∈ inputEncoded im, 0 ≤ x) ∧ inputEncoded im ≠ [] ∧
    (cnValues im).Sorted (· < ·) ∧ (0 : Int) ∈ cnValues im ∧
    (∀ x ∈ inputEncoded im, x ∈ cnValues im) ∧
    (cnValues im).length = N + 1 ∧ out.dtype ∈ _unsigned_types ∧
    (N : Int) ≤ dtypeMax out.dtype ∧
    out.data.flatten =
      (inputEncoded im).map (fun x => ((searchsorted (cnValues im) x : Nat) : Int)) := by
  cases im with
  | plain d dt =>
    simp only [consecutively_number] at h
    split at h
    next hu => simp at h
    next v0 rest hu =>
      split at h
      next hneg => simp at h
      next hneg =>
        have hin : inputEncoded (.plain d dt) = d.flatten := rfl
        have hsortedu : (v0 :: rest).Sorted (· < ·) := hu ▸ unique_sorted d.flatten
        have hnn : ∀ x ∈ d.flatten, 0 ≤ x := by
          intro x hx
          have hxu : x ∈ v0 :: rest := hu ▸ (mem_unique d.flatten x).2 hx
          have := head_le_of_sorted v0 x rest hsortedu hxu
          omega
        have hnonempty : d.flatten ≠ [] := by
          intro hnil
          rw [hnil] at hu
          simp [unique] at hu
        set vals : List Int := if v0 ≠ 0 then 0 :: v0 :: rest else v0 :: rest with hvals
        have hcv : cnValues (.plain d dt) = vals := by
          simp only [cnValues, inputEncoded, hu]
        have hvne : vals ≠ [] := by
          rw [hvals]
          split <;> simp
        have hvsorted : vals.Sorted (· < ·) := by
          rw [hvals]
          split
          next hv0 =>
            rw [List.sorted_cons]
            refine ⟨?_, hsortedu⟩
            intro b hb
            have hge := head_le_of_sorted v0 b rest hsortedu hb
            omega
          next hv0 => exact hsortedu
        have hv0mem : (0 : Int) ∈ vals := by
          rw [hvals]
          split
          next hv0 => exact List.mem_cons_self 0 _
          next hv0 =>
            have : v0 = 0 := by omega
            rw [← this]
            exact List.mem_cons_self v0 rest
        have hvmem : ∀ x ∈ d.flatten, x ∈ vals := by
          intro x hx
          have hxu : x ∈ v0 :: rest := hu ▸ (mem_unique d.flatten x).2 hx
          rw [hvals]
          split
          next hv0 => exact List.mem_cons_of_mem 0 hxu
          next hv0 => exact hxu
        have hv0head : vals.head? = some 0 := by
          rw [hvals]
          split
          next hv0 => rfl
          next hv0 =>
            have : v0 = 0 := by omega
            rw [this]
            rfl
        split at h
        next hfast =>
          obtain ⟨hlen, hdt, hle, hflat⟩ :=
            conv_type_fast vals d out N h hvsorted hvne hv0head hfast.2.2 hvmem
          exact ⟨hnn, hnonempty, hcv ▸ hvsorted, hcv ▸ hv0mem, hcv ▸ hvmem,
            hcv ▸ hlen, hdt, hle, by rw [hin, hcv]; exact hflat⟩
        next hfast =>
          obtain ⟨hlen, hdt, hle, hflat⟩ := conv_type_ranks vals d out N h hvne hvmem
          exact ⟨hnn, hnonempty, hcv ▸ hvsorted, hcv ▸ hv0mem, hcv ▸ hvmem,
            hcv ▸ hlen, hdt, hle, by rw [hin, hcv]; exact hflat⟩
  | rgb d =>
    simp only [consecutively_number] at h
    split at h
    next hu => simp at h
    next v0 rest hu =>
      have hencfl : (d.map (fun row => row.map (fun p => encodeRgb p))).flatten =
          inputEncoded (.rgb d) := flatten_map_map _ d
      rw [hencfl] at hu
      have hsortedu : (v0 :: rest).Sorted (· < ·) :=
        hu ▸ unique_sorted (inputEncoded (.rgb d))
      have hnn : ∀ x ∈ inputEncoded (.rgb d), 0 ≤ x := by
        intro x hx
        simp only [inputEncoded, List.mem_map] at hx
        obtain ⟨p, _, rfl⟩ := hx
        exact encodeRgb_nonneg p
      have hnonempty : inputEncoded (.rgb d) ≠ [] := by
        intro hnil
        rw [hnil] at hu
        simp [unique] at hu
      set vals : List Int := if v0 ≠ 0 then 0 :: v0 :: rest else v0 :: rest with hvals
      have hcv : cnValues (.rgb d) = vals := by
        simp only [cnValues, hu]
      have hvne : vals ≠ [] := by
        rw [hvals]
        split <;> simp
      have hv0mem : (0 : Int) ∈ vals := by
        have hv0nn : 0 ≤ v0 := by
          have : v0 ∈ v0 :: rest := List.mem_cons_self v0 rest
          rw [← hu] at this
          exact hnn v0 ((mem_unique _ v0).1 this)
        rw [hvals]
        split
        next hv0 => exact List.mem_cons_self 0 _
        next hv0 =>
          have : v0 = 0 := by omega
          rw [← this]
          exact List.mem_cons_self v0 rest
      have hvsorted : vals.Sorted (· < ·) := by
        have hv0nn : 0 ≤ v0 := by
          have hm : v0 ∈ v0 :: rest := List.mem_cons_self v0 rest
          rw [← hu] at hm
          exact hnn v0 ((mem_unique _ v0).1 hm)
        rw [hvals]
        split
        next hv0 =>
          rw [List.sorted_cons]
          refine ⟨?_, hsortedu⟩
          intro b hb
          have hge := head_le_of_sorted v0 b rest hsortedu hb
          omega
        next hv0 => exact hsortedu
      have hvmem : ∀ x ∈ inputEncoded (.rgb d), x ∈ vals := by
        intro x hx
        have hxu : x ∈ v0 :: rest := hu ▸ (mem_unique _ x).2 hx
        rw [hvals]
        split
        next hv0 => exact List.mem_cons_of_mem 0 hxu
        next hv0 => exact hxu
      have hmem2 : ∀ x ∈ (d.map (fun row => row.map (fun p => encodeRgb p))).flatten,
          x ∈ vals := by
        rw [hencfl]
        exact hvmem
      obtain ⟨hlen, hdt, hle, hflat⟩ :=
        conv_type_ranks vals (d.map (fun row => row.map (fun p => encodeRgb p))) out N
          (by exact h) (by exact hvne) hmem2
      rw [hencfl] at hflat
      exact ⟨hnn, hnonempty, hcv ▸ hvsorted, hcv ▸ hv0mem, hcv ▸ hvmem,
        hcv ▸ hlen, hdt, hle, by rw [hcv]; exact hflat⟩

theorem cnValues_cases (im : NpImage)
    (hnn : ∀ x ∈ inputEncoded im, 0 ≤ x) (hne : inputEncoded im ≠ []) :
    ((0 : Int) ∈ inputEncoded im → cnValues im = unique (inputEncoded im)) ∧
    ((0 : Int) ∉ inputEncoded im → cnValues im = 0 :: unique (inputEncoded im)) := by
  cases hu : unique (inputEncoded im) with
  | nil => exact absurd ((unique_eq_nil_iff _).1 hu) hne
  | cons v0 rest =>
    have hsorted : (v0 :: rest).Sorted (· < ·) := hu ▸ unique_sorted _
    have hv0mem : v0 ∈ inputEncoded im := by
      have : v0 ∈ unique (inputEncoded im) := by
        rw [hu]
        exact List.mem_cons_self v0 rest
      exact (mem_unique _ v0).1 this
    have hv0nn : 0 ≤ v0 := hnn v0 hv0mem
    constructor
    · intro h0
      have h0u : (0 : Int) ∈ v0 :: rest := by
        rw [← hu]
        exact (mem_unique _ 0).2 h0
      have hle : v0 ≤ 0 := head_le_of_sorted v0 0 rest hsorted h0u
      simp only [cnValues, hu]
      rw [if_neg (by omega)]
    · intro h0
      have hv0 : v0 ≠ 0 := by
        intro heq
        exact h0 (heq ▸ hv0mem)
      simp only [cnValues, hu]
      rw [if_pos hv0]

/-! ### Claim C9: negative values are rejected -/

/-- C9: for every plain (non-RGB) image containing at least one negative
value, `consecutively_number` raises an error (`ValueError` with message
`negative numbers`) and no renumbered image is produced. -/
theorem consecutively_number_negative (d : List (List Int)) (dt : Dtype) (x : Int)
    (hx : x ∈ d.flatten) (hneg : x < 0) :
    consecutively_number (.plain d dt) = .error "negative numbers" := by
  have hxu : x ∈ unique d.flatten := (mem_unique _ x).2 hx
  cases hu : unique d.flatten with
  | nil =>
    rw [hu] at hxu
    simp at hxu
  | cons v0 rest =>
    rw [hu] at hxu
    have hsorted : (v0 :: rest).Sorted (· < ·) := hu ▸ unique_sorted _
    have hle := head_le_of_sorted v0 x rest hsorted hxu
    simp only [consecutively_number, hu]
    rw [if_pos (show v0 < 0 by omega)]

/-- Witness for C9 at the concrete image `[[-3]]` of dtype `IM_SBYTE`. -/
theorem consecutively_number_negative_witness :
    consecutively_number (.plain [[-3]] IM_SBYTE) = .error "negative numbers" :=
  consecutively_number_negative [[-3]] IM_SBYTE (-3) (by decide) (by decide)

/-! ### Claim C5: the narrowing rule of `_conv_type` -/

/-- C5: `_conv_type` selects, from the fixed enumeration `_unsigned_types`
(ascending sizes), the smallest type whose maximum representable value is at
least `n` — its chosen type fits `n` and any enumerated type that fits `n`
has an at-least-as-large maximum — and when no enumerated unsigned type can
represent `n` (i.e. `n > 2^64 - 1`) it raises `OverflowError`. -/
theorem conv_type_narrowing (d : List (List Int)) (n : Nat) :
    ((n : Int) ≤ dtypeMax IM_ULONG →
      ∃ t, t ∈ _unsigned_types ∧
        _conv_type d n = .ok (⟨d.map (fun row => row.map (astypeVal t)), t⟩, n) ∧
        (n : Int) ≤ dtypeMax t ∧
        ∀ u ∈ _unsigned_types, (n : Int) ≤ dtypeMax u → dtypeMax t ≤ dtypeMax u) ∧
    (dtypeMax IM_ULONG < (n : Int) → _conv_type d n = .error "OverflowError") := by
  constructor
  · intro hle
    simp only [dtypeMax] at hle
    by_cases h1 : (n : Int) ≤ 1
    · refine ⟨IM_BIT, by simp [_unsigned_types], ?_, by simpa only [dtypeMax] using h1, ?_⟩
      · simp only [_conv_type, _unsigned_types, conv_type_go, dtypeMax]
        rw [if_pos h1]
      · intro u hu hun
        simp only [_unsigned_types, List.mem_cons, List.not_mem_nil, or_false] at hu
        rcases hu with rfl | rfl | rfl | rfl | rfl <;>
          simp only [dtypeMax] at hun ⊢ <;> omega
    · by_cases h2 : (n : Int) ≤ 255
      · refine ⟨IM_BYTE, by simp [_unsigned_types], ?_, by simpa only [dtypeMax] using h2, ?_⟩
        · simp only [_conv_type, _unsigned_types, conv_type_go, dtypeMax]
          rw [if_neg h1, if_pos h2]
        · intro u hu hun
          simp only [_unsigned_types, List.mem_cons, List.not_mem_nil, or_false] at hu
          rcases hu with rfl | rfl | rfl | rfl | rfl <;>
            simp only [dtypeMax] at hun ⊢ <;> omega
      · by_cases h3 : (n : Int) ≤ 65535
        · refine ⟨IM_USHORT, by simp [_unsigned_types], ?_,
            by simpa only [dtypeMax] using h3, ?_⟩
          · simp only [_conv_type, _unsigned_types, conv_type_go, dtypeMax]
            rw [if_neg h1, if_neg h2, if_pos h3]
          · intro u hu hun
            simp only [_unsigned_types, List.mem_cons, List.not_mem_nil, or_false] at hu
            rcases hu with rfl | rfl | rfl | rfl | rfl <;>
              simp only [dtypeMax] at hun ⊢ <;> omega
        · by_cases h4 : (n : Int) ≤ 2 ^ 32 - 1
          · refine ⟨IM_UINT, by simp [_unsigned_types], ?_,
              by simpa only [dtypeMax] using h4, ?_⟩
            · simp only [_conv_type, _unsigned_types, conv_type_go, dtypeMax]
              rw [if_neg h1, if_neg h2, if_neg h3, if_pos h4]
            · intro u hu hun
              simp only [_unsigned_types, List.mem_cons, List.not_mem_nil, or_false] at hu
              rcases hu with rfl | rfl | rfl | rfl | rfl <;>
                simp only [dtypeMax] at hun ⊢ <;> omega
          · refine ⟨IM_ULONG, by simp [_unsigned_types], ?_,
              by simp only [dtypeMax]; omega, ?_⟩
            · simp only [_conv_type, _unsigned_types, conv_type_go, dtypeMax]
              rw [if_neg h1, if_neg h2, if_neg h3, if_neg h4,
                if_pos (by omega : (n : Int) ≤ 2 ^ 64 - 1)]
            · intro u hu hun
              simp only [_unsigned_types, List.mem_cons, List.not_mem_nil, or_false] at hu
              rcases hu with rfl | rfl | rfl | rfl | rfl <;>
                simp only [dtypeMax] at hun ⊢ <;> omega
  · intro hgt
    simp only [dtypeMax] at hgt
    simp only [_conv_type, _unsigned_types, conv_type_go, dtypeMax]
    rw [if_neg (by omega), if_neg (by omega), if_neg (by omega), if_neg (by omega),
      if_neg (by omega)]

/-- Witness for C5: at `n = 300` the chosen type is `IM_USHORT` (the 16-bit
type, the smallest whose maximum `65535 ≥ 300`), and at `n = 2^64` the
result is `OverflowError`. -/
theorem conv_type_narrowing_witness :
    _conv_type [[(0 : Int)]] 300 = .ok (⟨[[(0 : Int)]], IM_USHORT⟩, 300) ∧
    _conv_type [[(0 : Int)]] (2 ^ 64) = .error "OverflowError" := by
  constructor
  · obtain ⟨t, _, heq, _, _⟩ := (conv_type_narrowing [[(0 : Int)]] 300).1
      (by simp only [dtypeMax]; norm_num)
    cases t <;>
      first
        | exact heq
        | (exfalso; revert heq; decide)
  · exact (conv_type_narrowing [[(0 : Int)]] (2 ^ 64)).2
      (by simp only [dtypeMax]; norm_num)

/-! ### Claim C10: tiny label counts narrow to the boolean dtype -/

theorem consecutively_number_via_conv (im : NpImage) (out : PlainImage) (N : Nat)
    (h : consecutively_number im = .ok (out, N)) :
    ∃ dd, _conv_type dd N = .ok (out, N) := by
  cases im with
  | plain d dt =>
    simp only [consecutively_number] at h
    split at h
    next => simp at h
    next v0 rest hu =>
      split at h
      next => simp at h
      next =>
        set vals : List Int := if v0 ≠ 0 then 0 :: v0 :: rest else v0 :: rest with hvals
        split at h
        next =>
          obtain ⟨hm, _, _, _⟩ := _conv_type_ok _ _ _ _ h
          rw [← hm] at h
          exact ⟨d, h⟩
        next =>
          obtain ⟨hm, _, _, _⟩ := _conv_type_ok _ _ _ _ h
          rw [← hm] at h
          exact ⟨_, h⟩
  | rgb d =>
    simp only [consecutively_number] at h
    split at h
    next => simp at h
    next v0 rest hu =>
      obtain ⟨hm, _, _, _⟩ := _conv_type_ok _ _ _ _ h
      rw [← hm] at h
      exact ⟨_, h⟩

theorem conv_type_ok_small (dd : List (List Int)) (n : Nat) (out : PlainImage) (m : Nat)
    (h : _conv_type dd n = .ok (out, m)) (hn : n ≤ 1) : out.dtype = IM_BIT := by
  rw [_conv_type_bit dd n hn] at h
  simp only [Except.ok.injEq, Prod.mk.injEq] at h
  exact (congrArg PlainImage.dtype h.1).symm

/-- C10: whenever `consecutively_number` accepts an input and returns a max
label `N ≤ 1` (at most two distinct values after the synthetic insertion of
`0`), the returned dtype is `IM_BIT` — the first entry of the ascending
enumeration — and that dtype is *not* an unsigned-integer dtype (numpy kind
`u`): the boolean dtype is kind `b`. -/
theorem consecutively_number_small_is_bool (im : NpImage) (out : PlainImage) (N : Nat)
    (h : consecutively_number im = .ok (out, N)) (hN : N ≤ 1) :
    out.dtype = IM_BIT ∧ isUnsignedIntKind out.dtype = false := by
  obtain ⟨dd, hc⟩ := consecutively_number_via_conv im out N h
  have hbit := conv_type_ok_small dd N out N hc hN
  exact ⟨hbit, by rw [hbit]; rfl⟩

/-- Witness for C10 at the concrete image `[[0, 1]]` of dtype `IM_BYTE`:
`consecutively_number` returns `N = 1` and the boolean dtype. -/
theorem consecutively_number_small_is_bool_witness :
    (⟨[[0, 1]], IM_BIT⟩ : PlainImage).dtype = IM_BIT ∧
    isUnsignedIntKind (⟨[[0, 1]], IM_BIT⟩ : PlainImage).dtype = false :=
  consecutively_number_small_is_bool (.plain [[0, 1]] IM_BYTE) ⟨[[0, 1]], IM_BIT⟩ 1
    (by decide) (by decide)

/-! ### Claim C3: zero maps to zero, and only zero maps to zero -/

theorem cnValues_subset (im : NpImage) :
    ∀ y ∈ cnValues im, y = 0 ∨ y ∈ unique (inputEncoded im) := by
  intro y hy
  unfold cnValues at hy
  split at hy
  next => simp at hy
  next v0 rest hu =>
    split at hy
    next =>
      rcases List.mem_cons.1 hy with rfl | hy2
      · exact Or.inl rfl
      · right
        rw [hu]
        exact hy2
    next =>
      right
      rw [hu]
      exact hy

theorem cnValues_nonneg (im : NpImage) (hnn : ∀ x ∈ inputEncoded im, 0 ≤ x) :
    ∀ y ∈ cnValues im, 0 ≤ y := by
  intro y hy
  rcases cnValues_subset im y hy with rfl | hyu
  · exact le_refl 0
  · exact hnn y ((mem_unique _ y).1 hyu)

theorem forall₂_map_map {α β γ : Type} (R : β → γ → Prop) (f : α → β) (g : α → γ)
    (l : List α) (h : ∀ a ∈ l, R (f a) (g a)) :
    List.Forall₂ R (l.map f) (l.map g) := by
  induction l with
  | nil => exact List.Forall₂.nil
  | cons a t ih =>
    simp only [List.map_cons]
    exact List.Forall₂.cons (h a (List.mem_cons_self a t))
      (ih (fun b hb => h b (List.mem_cons_of_mem a hb)))

theorem encodeRgb_eq_zero_iff (p : Rgb) : encodeRgb p = 0 ↔ p = ((0, 0, 0) : Rgb) := by
  obtain ⟨r, g, b⟩ := p
  unfold encodeRgb
  simp only [Prod.mk.injEq]
  constructor
  · intro h
    have hnat : r * 65536 + g * 256 + b = 0 := by exact_mod_cast h
    omega
  · rintro ⟨rfl, rfl, rfl⟩
    rfl

/-- Whether each pixel of the input is the background value: `0` for a
plain image, the literal RGB triple `(0,0,0)` for an RGB image. -/
def inputZeroMask : NpImage → List Bool
  | .plain d _ => d.flatten.map (fun x => decide (x = 0))
  | .rgb d => d.flatten.map (fun p => decide (p = ((0, 0, 0) : Rgb)))

/-- C3: for every input accepted by `consecutively_number`, a pixel is
mapped to `0` in the output if and only if its original value was `0`
(respectively the RGB triple `(0,0,0)`), position by position. -/
theorem consecutively_number_zero_iff (im : NpImage) (out : PlainImage) (N : Nat)
    (h : consecutively_number im = .ok (out, N)) :
    List.Forall₂ (fun z y => y = 0 ↔ z = true) (inputZeroMask im) out.data.flatten := by
  obtain ⟨hnn, _, _, h0mem, hmemv, _, _, _, hflat⟩ :=
    consecutively_number_ok_struct im out N h
  have hvnn : ∀ y ∈ cnValues im, 0 ≤ y := cnValues_nonneg im hnn
  rw [hflat]
  cases im with
  | plain d dt =>
    apply forall₂_map_map
    intro x hx
    have hx0 : 0 ≤ x := hnn x hx
    have hzero := searchsorted_eq_zero_iff (cnValues (.plain d dt)) x hvnn h0mem hx0
    simp only [decide_eq_true_eq, Nat.cast_eq_zero]
    exact hzero
  | rgb d =>
    simp only [inputZeroMask, inputEncoded, List.map_map]
    apply forall₂_map_map
    intro p hp
    have hpenc : encodeRgb p ∈ inputEncoded (.rgb d) := by
      simp only [inputEncoded, List.mem_map]
      exact ⟨p, hp, rfl⟩
    have hx0 : 0 ≤ encodeRgb p := encodeRgb_nonneg p
    have hzero := searchsorted_eq_zero_iff (cnValues (.rgb d)) (encodeRgb p) hvnn h0mem hx0
    simp only [Function.comp_apply, decide_eq_true_eq, Nat.cast_eq_zero]
    rw [hzero]
    exact encodeRgb_eq_zero_iff p

/-- Witness for C3 at the concrete RGB image `[[(0,0,0), (3,0,0)]]`, whose
renumbering is `[[0, 1]]` with `N = 1`. -/
theorem consecutively_number_zero_iff_witness :
    List.Forall₂ (fun z y => y = 0 ↔ z = true)
      (inputZeroMask (.rgb [[(0, 0, 0), (3, 0, 0)]]))
      ((⟨[[0, 1]], IM_BIT⟩ : PlainImage).data.flatten) :=
  consecutively_number_zero_iff (.rgb [[(0, 0, 0), (3, 0, 0)]]) ⟨[[0, 1]], IM_BIT⟩ 1
    (by decide)

/-! ### Claim C1: the distinct values of the renumbered output -/

theorem rangeInt'_one_sorted (N : Nat) : (rangeInt' 1 N).Sorted (· < ·) := by
  unfold rangeInt'
  rw [List.Sorted, List.pairwise_map]
  exact (List.pairwise_lt_range' 1 N).imp (by intro a b h; exact_mod_cast h)

theorem mem_rangeInt'_one (N : Nat) (x : Int) :
    x ∈ rangeInt' 1 N ↔ 1 ≤ x ∧ x < 1 + (N : Int) := by
  unfold rangeInt'
  simp only [List.mem_map, List.mem_range'_1]
  constructor
  · rintro ⟨k, ⟨hk1, hk2⟩, rfl⟩
    omega
  · rintro ⟨h1, h2⟩
    refine ⟨x.toNat, ⟨by omega, by omega⟩, by omega⟩

/-- C1, amended to what the code does: the sorted distinct values of the
output of `consecutively_number` are exactly `[0, 1, ..., N]` when the
value `0` (encoded `(0,0,0)` for RGB) occurs in the input, and exactly
`[1, ..., N]` — `0` is absent — when it does not. -/
theorem consecutively_number_distinct_values (im : NpImage) (out : PlainImage) (N : Nat)
    (h : consecutively_number im = .ok (out, N)) :
    unique out.data.flatten =
      if (0 : Int) ∈ inputEncoded im then rangeInt (N + 1) else rangeInt' 1 N := by
  obtain ⟨hnn, hne, hsorted, h0mem, hmemv, hlen, _, _, hflat⟩ :=
    consecutively_number_ok_struct im out N h
  have hcases := cnValues_cases im hnn hne
  by_cases h0 : (0 : Int) ∈ inputEncoded im
  · rw [if_pos h0]
    have hveq : cnValues im = unique (inputEncoded im) := hcases.1 h0
    apply sorted_eq_of_mem_iff _ _ (unique_sorted _) (rangeInt_sorted _)
    intro a
    rw [mem_unique, hflat, List.mem_map, mem_rangeInt]
    constructor
    · rintro ⟨x, hx, rfl⟩
      have hxv : x ∈ cnValues im := hmemv x hx
      have hlt := searchsorted_lt_length (cnValues im) x hxv
      constructor
      · exact Int.ofNat_nonneg _
      · push_cast
        omega
    · rintro ⟨ha0, haN⟩
      have hj : a.toNat < (cnValues im).length := by omega
      obtain ⟨x, hxv, hrank⟩ := searchsorted_surj (cnValues im) hsorted a.toNat hj
      refine ⟨x, ?_, ?_⟩
      · rw [hveq] at hxv
        exact (mem_unique _ x).1 hxv
      · rw [hrank]
        omega
  · rw [if_neg h0]
    have hveq : cnValues im = 0 :: unique (inputEncoded im) := hcases.2 h0
    have hulen : (unique (inputEncoded im)).length = N := by
      have := hlen
      rw [hveq] at this
      simp only [List.length_cons] at this
      omega
    have husorted : (unique (inputEncoded im)).Sorted (· < ·) := unique_sorted _
    have hpos : ∀ x ∈ inputEncoded im, 0 < x := by
      intro x hx
      have := hnn x hx
      rcases lt_or_eq_of_le this with hlt | heq
      · exact hlt
      · exact absurd (heq ▸ hx) h0
    apply sorted_eq_of_mem_iff _ _ (unique_sorted _) (rangeInt'_one_sorted _)
    intro a
    rw [mem_unique, hflat, List.mem_map, mem_rangeInt'_one]
    constructor
    · rintro ⟨x, hx, rfl⟩
      have hxu : x ∈ unique (inputEncoded im) := (mem_unique _ x).2 hx
      have hxpos : 0 < x := hpos x hx
      have hcons : searchsorted (cnValues im) x = searchsorted (unique (inputEncoded im)) x + 1 := by
        rw [hveq, searchsorted_cons, if_pos hxpos]
        omega
      have hlt := searchsorted_lt_length (unique (inputEncoded im)) x hxu
      rw [hcons]
      constructor
      · push_cast
        omega
      · push_cast
        omega
    · rintro ⟨ha1, haN⟩
      have hj : a.toNat - 1 < (unique (inputEncoded im)).length := by omega
      obtain ⟨x, hxu, hrank⟩ := searchsorted_surj _ husorted (a.toNat - 1) hj
      have hxin : x ∈ inputEncoded im := (mem_unique _ x).1 hxu
      have hxpos : 0 < x := hpos x hxin
      refine ⟨x, hxin, ?_⟩
      have hcons : searchsorted (cnValues im) x = searchsorted (unique (inputEncoded im)) x + 1 := by
        rw [hveq, searchsorted_cons, if_pos hxpos]
        omega
      rw [hcons, hrank]
      omega

/-- Counterexample to C1 as stated: for the input `[[5]]` (the value `0`
does not occur), the output is `[[1]]` with `N = 1`, and its distinct-value
set is `{1}`, not `{0, 1}`. -/
theorem consecutively_number_distinct_cex :
    consecutively_number (.plain [[5]] IM_BYTE) = .ok (⟨[[1]], IM_BIT⟩, 1) ∧
    unique ((⟨[[1]], IM_BIT⟩ : PlainImage).data.flatten) ≠ rangeInt (1 + 1) := by
  constructor
  · decide
  · decide

/-- Witness for the amended C1 at the concrete image `[[5]]`: `0` is absent
from the input, and the output distinct values are exactly `[1]`. -/
theorem consecutively_number_distinct_values_witness :
    unique ((⟨[[1]], IM_BIT⟩ : PlainImage).data.flatten) =
      if (0 : Int) ∈ inputEncoded (.plain [[5]] IM_BYTE) then rangeInt (1 + 1)
      else rangeInt' 1 1 :=
  consecutively_number_distinct_values (.plain [[5]] IM_BYTE) ⟨[[1]], IM_BIT⟩ 1 (by decide)

/-! ### Claim C6: the fast path agrees with the rank-lookup path -/

theorem rangeInt_head? (k : Nat) : (rangeInt (k + 1)).head? = some 0 := by
  unfold rangeInt
  rw [List.range_succ_eq_map]
  rfl

theorem rangeInt_getLast? (k : Nat) : (rangeInt (k + 1)).getLast? = some (k : Int) := by
  unfold rangeInt
  rw [List.range_succ, List.map_append]
  exact List.getLast?_concat _

theorem rangeInt_length (c : Nat) : (rangeInt c).length = c := by
  unfold rangeInt
  rw [List.length_map, List.length_range]

theorem map_map_id_of_flatten {α : Type} (f : α → α) (d : List (List α))
    (h : ∀ x ∈ d.flatten, f x = x) : d.map (fun row => row.map f) = d := by
  induction d with
  | nil => rfl
  | cons r rs ih =>
    simp only [List.map_cons]
    have h1 : List.map f r = r := by
      have hr : ∀ x ∈ r, f x = x := by
        intro x hx
        exact h x (by simp only [List.flatten_cons, List.mem_append]; exact Or.inl hx)
      rw [List.map_congr_left hr]
      exact List.map_id' r
    have h2 : rs.map (fun row => row.map f) = rs := by
      apply ih
      intro x hx
      exact h x (by simp only [List.flatten_cons, List.mem_append]; exact Or.inr hx)
    rw [h1, h2]

/-- The general rank-lookup path of `consecutively_number`'s plain branch:
identical to the source of `consecutively_number` on plain images except
that the fast-path test is removed, so the `searchsorted` rank remap is
always performed.  (The refinement comparison of claim C6; it does not
depend on the element dtype.) -/
def consecutively_number_rankpath (d : List (List Int)) :
    Except String (PlainImage × Nat) :=
  match unique d.flatten with
  | [] => .error "IndexError"
  | v0 :: rest =>
    if v0 < 0 then .error "negative numbers"
    else
      let values := if v0 ≠ 0 then 0 :: v0 :: rest else v0 :: rest
      _conv_type (d.map (fun row => row.map (fun x => ((searchsorted values x : Nat) : Int))))
        (values.length - 1)

/-- C6: for every non-floating-point plain image whose distinct values are
exactly the dense sequence `0..c-1`, `consecutively_number` (which takes
the fast path, skipping the rank remap) returns the same
(renumbered image, max label) pair as the general rank-lookup path. -/
theorem fastpath_eq_rankpath (d : List (List Int)) (dt : Dtype) (c : Nat)
    (hf : dt ≠ IM_FLOAT) (hdb : dt ≠ IM_DOUBLE)
    (hdense : unique d.flatten = rangeInt c) (hc : c ≠ 0) :
    consecutively_number (.plain d dt) = consecutively_number_rankpath d := by
  obtain ⟨k, rfl⟩ : ∃ k, c = k + 1 := ⟨c - 1, by omega⟩
  have hrex : ∃ rest, rangeInt (k + 1) = 0 :: rest := by
    cases hrx : rangeInt (k + 1) with
    | nil =>
      have hh := rangeInt_length (k + 1)
      rw [hrx] at hh
      simp at hh
    | cons v0 r2 =>
      have hh := rangeInt_head? k
      rw [hrx] at hh
      simp only [List.head?_cons, Option.some.injEq] at hh
      subst hh
      exact ⟨r2, rfl⟩
  obtain ⟨rest, hr⟩ := hrex
  have hlast : (0 :: rest).getLast? = some (((0 :: rest).length : Int) - 1) := by
    have h1 := rangeInt_getLast? k
    have h2 := rangeInt_length (k + 1)
    rw [hr] at h1 h2
    rw [h1, h2]
    congr 1
    push_cast
    omega
  have h00 : ¬ ((0 : Int) < 0) := by omega
  have h0ne : ¬ ((0 : Int) ≠ 0) := by omega
  simp only [consecutively_number, consecutively_number_rankpath, hdense, hr,
    if_neg h00, if_neg h0ne]
  rw [if_pos ⟨hf, hdb, hlast⟩]
  have hid : d.map (fun row => row.map
      (fun x => ((searchsorted (0 :: rest) x : Nat) : Int))) = d := by
    apply map_map_id_of_flatten
    intro x hx
    have hxu : x ∈ unique d.flatten := (mem_unique _ x).2 hx
    rw [hdense, hr] at hxu
    rw [← hr]
    exact searchsorted_rangeInt (k + 1) x (hr ▸ hxu)
  rw [hid]

/-- Witness for C6 at the concrete image `[[0, 1, 2]]` of dtype `IM_BYTE`
(distinct values exactly `0..2`). -/
theorem fastpath_eq_rankpath_witness :
    consecutively_number (.plain [[0, 1, 2]] IM_BYTE) =
      consecutively_number_rankpath [[0, 1, 2]] :=
  fastpath_eq_rankpath [[0, 1, 2]] IM_BYTE 3 (by decide) (by decide) (by decide) (by decide)

/-! ### Claims C2 and C4: the relabel loop -/

theorem relabel_body_noop (lbl : Labeler) (im1 : PlainImage) (mx : Int) (N : Nat) (i : Nat)
    (hmx : (N : Int) ≤ mx)
    (hone : (lbl (maskEq im1.data i)).2 = 1) :
    relabel_body lbl (im1, mx, N) i = pure (im1, mx, N) := by
  show (do
    let immx ←
      if ((N + (lbl (maskEq im1.data i)).2 - 1 : Nat) : Int) > mx then do
        let cv ← _conv_type im1.data (N + (lbl (maskEq im1.data i)).2 - 1)
        pure (cv.1, dtypeMax cv.1.dtype)
      else pure (im1, mx)
    let dN := (List.range' 2 ((lbl (maskEq im1.data i)).2 - 1)).foldl
      (relabel_inner (lbl (maskEq im1.data i)).1) (immx.1.data, N)
    pure ((⟨dN.1, immx.1.dtype⟩ : PlainImage), immx.2, dN.2)) = pure (im1, mx, N)
  rw [hone]
  rw [if_neg (by omega : ¬ ((N + 1 - 1 : Nat) : Int) > mx)]
  rfl

theorem relabel_fold_const (lbl : Labeler) (im1 : PlainImage) (mx : Int) (N : Nat)
    (hmx : (N : Int) ≤ mx) (L : List Nat)
    (hone : ∀ i ∈ L, (lbl (maskEq im1.data i)).2 = 1) :
    L.foldlM (relabel_body lbl) (im1, mx, N) = pure (im1, mx, N) := by
  induction L with
  | nil => rfl
  | cons i L ih =>
    rw [List.foldlM_cons,
      relabel_body_noop lbl im1 mx N i hmx (hone i (List.mem_cons_self i L)), pure_bind]
    exact ih (fun j hj => hone j (List.mem_cons_of_mem i hj))

/-- C4: for every image whose renumbering assigns each nonzero label
exactly one connected region (the external labeler reports one component
on each mask `im == i`, `i = 1..N`), `relabel` returns an image equal
pixel-for-pixel to the result of `consecutively_number` on the same input,
together with the same max label `N`. -/
theorem relabel_single_region (lbl : Labeler) (im0 : NpImage) (im1 : PlainImage) (N : Nat)
    (h : consecutively_number im0 = .ok (im1, N))
    (hone : ∀ i, 1 ≤ i → i ≤ N → (lbl (maskEq im1.data i)).2 = 1) :
    relabel lbl im0 = .ok (im1, N) := by
  obtain ⟨_, _, _, _, _, _, _, hle, _⟩ := consecutively_number_ok_struct im0 im1 N h
  unfold relabel
  rw [h]
  show ((List.range' 1 N).foldlM (relabel_body lbl) (im1, dtypeMax im1.dtype, N) >>=
    fun st => pure (st.1, st.2.2)) = .ok (im1, N)
  rw [relabel_fold_const lbl im1 (dtypeMax im1.dtype) N hle (List.range' 1 N)
    (by
      intro j hj
      rw [List.mem_range'_1] at hj
      exact hone j hj.1 (by omega))]
  rfl

/-- Witness for C4 at the concrete image `[[0, 1]]` with the run labeler
(label 1 is a single connected region). -/
theorem relabel_single_region_witness :
    relabel labelRuns (.plain [[0, 1]] IM_BYTE) = .ok (⟨[[0, 1]], IM_BIT⟩, 1) := by
  apply relabel_single_region labelRuns (.plain [[0, 1]] IM_BYTE) ⟨[[0, 1]], IM_BIT⟩ 1
  · decide
  · intro i h1 h2
    have hi : i = 1 := by omega
    subst hi
    decide

/-- C2 (amended): the `for i in range(1, N+1)` loop of `relabel` iterates
over exactly the labels `1..N₀`, where `N₀` is the max label returned by
the initial renumbering, each visited exactly once; the range object is
built once at loop entry, so labels introduced by splitting (which make
the final `N` exceed `N₀`) are not themselves visited. -/
theorem relabel_visited_spec (lbl : Labeler) (im0 : NpImage) (im1 : PlainImage)
    (N : Nat) (i : Nat) (h : consecutively_number im0 = .ok (im1, N)) :
    relabel_visited im0 = List.range' 1 N ∧
    (relabel_visited im0).Nodup ∧
    relabel lbl im0 =
      ((List.range' 1 N).foldlM (relabel_body lbl) (im1, dtypeMax im1.dtype, N) >>=
        fun st => pure (st.1, st.2.2)) ∧
    (i ∈ relabel_visited im0 ↔ 1 ≤ i ∧ i ≤ N) := by
  have hv : relabel_visited im0 = List.range' 1 N := by
    unfold relabel_visited
    rw [h]
  refine ⟨hv, ?_, ?_, ?_⟩
  · rw [hv]
    exact List.nodup_range' 1 N
  · unfold relabel
    rw [h]
    rfl
  · rw [hv]
    rw [List.mem_range'_1]
    omega

/-- C2 counterexample: on the 1×3 image `[[1, 0, 1]]` label 1 occupies two
disconnected runs; `relabel` (with the run labeler, which agrees with
4-connected components on single-row masks) returns final max label
`N = 2`, yet the loop visited only `[1]` — the label `2` created by the
split is never visited, so the iteration bound does not track the grown
label count. -/
theorem relabel_visited_cex :
    relabel labelRuns (.plain [[1, 0, 1]] IM_BYTE) = .ok (⟨[[1, 0, 2]], IM_BYTE⟩, 2) ∧
    relabel_visited (.plain [[1, 0, 1]] IM_BYTE) = [1] ∧
    ¬ (2 ∈ relabel_visited (.plain [[1, 0, 1]] IM_BYTE)) := by
  refine ⟨?_, ?_, ?_⟩ <;> decide

/-- Witness for the amended C2 at the concrete image `[[0, 1]]` with the
run labeler. -/
theorem relabel_visited_spec_witness :
    relabel_visited (.plain [[0, 1]] IM_BYTE) = List.range' 1 1 ∧
    (relabel_visited (.plain [[0, 1]] IM_BYTE)).Nodup ∧
    relabel labelRuns (.plain [[0, 1]] IM_BYTE) =
      ((List.range' 1 1).foldlM (relabel_body labelRuns)
        (⟨[[0, 1]], IM_BIT⟩, dtypeMax (⟨[[0, 1]], IM_BIT⟩ : PlainImage).dtype, 1) >>=
        fun st => pure (st.1, st.2.2)) ∧
    (1 ∈ relabel_visited (.plain [[0, 1]] IM_BYTE) ↔ 1 ≤ 1 ∧ 1 ≤ 1) :=
  relabel_visited_spec labelRuns (.plain [[0, 1]] IM_BYTE) ⟨[[0, 1]], IM_BIT⟩ 1 1 (by decide)

/-! ### Claims C7 and C8: `histeq` -/

theorem _signed2unsigned_idem (dt udt : Dtype) (h : _signed2unsigned dt = some udt) :
    _signed2unsigned udt = none := by
  cases dt <;> simp only [_signed2unsigned, Option.some.injEq] at h <;>
    first
      | exact absurd h (by simp)
      | (rw [← h]; rfl)

/-- C7: for a plain image whose element dtype is signed with an unsigned
counterpart, `histeq` equals `histeq` run on the bit-level reinterpretation
of the data as that unsigned counterpart (each element reduced modulo
`2^w`, a reinterpretation of the stored pattern, not a value conversion),
with the result viewed back: the histograms — indeed the entire matching
pipeline — are computed on the reinterpreted values, and the returned
array's element dtype is the original signed dtype. -/
theorem histeq_signed_reinterpret (d : List (List Int)) (dt udt : Dtype)
    (h : _signed2unsigned dt = some udt) (nbins : Option Nat) (hgram : Option NArr) :
    histeq (.plain d dt) nbins hgram =
      (histeq (.plain (d.map (fun row => row.map (viewUnsignedVal (bitWidth udt)))) udt)
          nbins hgram).map
        (fun out =>
          ⟨out.data.map (fun row => row.map (viewSignedVal (bitWidth udt))), dt⟩) := by
  have hu := _signed2unsigned_idem dt udt h
  simp only [histeq]
  have hsz : (d.map (fun row => row.map (viewUnsignedVal (bitWidth udt)))).flatten.length
      = d.flatten.length := by
    rw [flatten_map_map, List.length_map]
  rw [hsz]
  cases hargs : histeq_args d.flatten.length nbins hgram with
  | error e => rfl
  | ok p =>
    simp only [h, hu, viewBackData]
    rfl

/-- Witness for C7 at the concrete signed-byte image `[[-1, 0]]` (unsigned
counterpart `IM_BYTE`, width 8). -/
theorem histeq_signed_reinterpret_witness :
    histeq (.plain [[-1, 0]] IM_SBYTE) none none =
      (histeq (.plain ([[-1, 0]].map (fun row => row.map (viewUnsignedVal (bitWidth IM_BYTE))))
          IM_BYTE) none none).map
        (fun out =>
          ⟨out.data.map (fun row => row.map (viewSignedVal (bitWidth IM_BYTE))), IM_SBYTE⟩) :=
  histeq_signed_reinterpret [[-1, 0]] IM_SBYTE IM_BYTE rfl none none

/-- C8: `histeq` raises an argument error whenever both `nbins` and `hgram`
are specified; raises an argument error whenever `hgram` is specified and
is not exactly 1-dimensional; and uses `nbins = 64` (a uniform 64-bin
target summing to the pixel count) when neither is given. -/
theorem histeq_argument_checks (d : List (List Int)) (dt : Dtype) (nb : Nat)
    (hg hg2 : NArr) (hnd : hg2.shape.length ≠ 1) (sz : Nat) :
    histeq (.plain d dt) (some nb) (some hg) =
      .error "Cannot use both nbins and hgram in histeq" ∧
    histeq (.plain d dt) none (some hg2) = .error "hgram must be a vector" ∧
    histeq_args sz none none =
      .ok (64, List.replicate 64 ((sz : ℚ) / ((64 : Nat) : ℚ))) := by
  refine ⟨rfl, ?_, rfl⟩
  have harg : histeq_args d.flatten.length none (some hg2) =
      .error "hgram must be a vector" := by
    simp only [histeq_args]
    rw [if_pos hnd]
  simp only [histeq]
  rw [harg]
  rfl

/-- Witness for C8: both arguments given on a concrete image; a concrete
2-D `hgram`; and the 64-bin default at pixel count 1. -/
theorem histeq_argument_checks_witness :
    histeq (.plain [[0]] IM_BYTE) (some 4) (some ⟨[2], [1, 1]⟩) =
      .error "Cannot use both nbins and hgram in histeq" ∧
    histeq (.plain [[0]] IM_BYTE) none (some ⟨[2, 2], [1, 1, 1, 1]⟩) =
      .error "hgram must be a vector" ∧
    histeq_args 1 none none =
      .ok (64, List.replicate 64 (((1 : Nat) : ℚ) / ((64 : Nat) : ℚ))) :=
  histeq_argument_checks [[0]] IM_BYTE 4 ⟨[2], [1, 1]⟩ ⟨[2, 2], [1, 1, 1, 1]⟩ (by decide) 1

end Images
